import Mathlib

/-
Verification of the content-addressed repository storage engine described in
spec.md (transactional segment log, dedup cache, manifest authentication,
checker/repair).  The engine's own source is not in the repository snapshot
(only its test suite is), so every definition below is modelled from the
specification text, faithful to its words and to the behaviour the test
suite exercises.
-/

/-- Modelled from the spec: a segment is a sequence of framed records
PUT(id, payload), DELETE(id) and COMMIT.  The repository source file is not
in the snapshot, so the record type is modelled from the spec's data model. -/
inductive LogRecord where
  | put (id : Nat) (payload : List Nat)
  | delete (id : Nat)
  | commit
deriving DecidableEq

/-- Modelled from the spec: whether a record is a COMMIT marker. -/
def LogRecord.isCommit : LogRecord → Bool
  | .commit => true
  | _ => false

/-- Modelled from the spec: the repository's current transaction id is the
position of the last valid COMMIT found during log replay, i.e. the length
of the longest prefix of the log ending in a COMMIT record (0 when no commit
exists). -/
def transaction_id : List LogRecord → Nat
  | [] => 0
  | r :: rest =>
      let t := transaction_id rest
      if t ≠ 0 then t + 1
      else if r.isCommit then 1 else 0

/-- Modelled from the spec: recovery on open finds the most recent COMMIT;
everything after it (records of an interrupted write) is truncated/ignored. -/
def recover (log : List LogRecord) : List LogRecord :=
  log.take (transaction_id log)

/-- Modelled from the spec: replaying one record into the index mapping a
chunk id to its stored payload. -/
def applyRecord (index : Nat → Option (List Nat)) : LogRecord → Nat → Option (List Nat)
  | .put i payload => fun j => if j = i then some payload else index j
  | .delete i => fun j => if j = i then none else index j
  | .commit => index

/-- Modelled from the spec: the index is rebuilt deterministically by
replaying segment records in order, starting from the empty mapping. -/
def replay (log : List LogRecord) : Nat → Option (List Nat) :=
  log.foldl applyRecord (fun _ => none)

/-- Modelled from the spec: opening a repository truncates past the last
COMMIT and replays everything up to and including it into the index. -/
def open_index (log : List LogRecord) : Nat → Option (List Nat) :=
  replay (recover log)

theorem transaction_id_eq_zero_of_nocommit (staged : List LogRecord)
    (h : ∀ r ∈ staged, r.isCommit = false) : transaction_id staged = 0 := by
  induction staged with
  | nil => rfl
  | cons r rest ih =>
      have hr : r.isCommit = false := h r (List.mem_cons_self r rest)
      have hrest : transaction_id rest = 0 :=
        ih (fun x hx => h x (List.mem_cons_of_mem r hx))
      simp [transaction_id, hrest, hr]

theorem transaction_id_append_nocommit (log staged : List LogRecord)
    (h : ∀ r ∈ staged, r.isCommit = false) :
    transaction_id (log ++ staged) = transaction_id log := by
  induction log with
  | nil => simpa using transaction_id_eq_zero_of_nocommit staged h
  | cons r rest ih =>
      simp [transaction_id, ih]

theorem transaction_id_le_length (log : List LogRecord) :
    transaction_id log ≤ log.length := by
  induction log with
  | nil => simp [transaction_id]
  | cons r rest ih =>
      simp only [transaction_id, List.length_cons]
      split
      · omega
      · split <;> omega

theorem recover_append_nocommit (log staged : List LogRecord)
    (h : ∀ r ∈ staged, r.isCommit = false) :
    recover (log ++ staged) = recover log := by
  unfold recover
  rw [transaction_id_append_nocommit log staged h]
  exact List.take_append_of_le_length (transaction_id_le_length log)

theorem transaction_id_take (log : List LogRecord) :
    transaction_id (log.take (transaction_id log)) = transaction_id log := by
  induction log with
  | nil => rfl
  | cons r rest ih =>
      by_cases ht : transaction_id rest = 0
      · by_cases hc : r.isCommit = true
        · simp [transaction_id, ht, hc]
        · simp [transaction_id, ht, hc]
      · simp only [transaction_id, if_pos ht, List.take_succ_cons]
        have : transaction_id (List.take (transaction_id rest) rest) ≠ 0 := by
          rw [ih]; exact ht
        simp [transaction_id, ih, this]
        intro hx
        exact absurd hx ht

theorem recover_recover (log : List LogRecord) :
    recover (recover log) = recover log := by
  unfold recover
  rw [transaction_id_take, List.take_take, min_self]

/-- C1: Transaction atomicity.  If the writer is interrupted after staging
PUT/DELETE records (no COMMIT among them) but before commit, then on reopen
the transaction id is unchanged, the replayed index is exactly the index of
the committed log (no staged record is visible), and an interrupt before the
very first commit (repository initialization) leaves an empty repository
behind; the recovered log is stable under re-recovery, so the repository
stays readable. -/
theorem transaction_atomicity (log staged : List LogRecord)
    (h : ∀ r ∈ staged, r.isCommit = false) :
    transaction_id (log ++ staged) = transaction_id log ∧
    open_index (log ++ staged) = open_index log ∧
    (open_index staged = fun _ => none) ∧
    recover (recover (log ++ staged)) = recover (log ++ staged) := by
  have hrec : recover (log ++ staged) = recover log :=
    recover_append_nocommit log staged h
  refine ⟨transaction_id_append_nocommit log staged h, ?_, ?_, recover_recover _⟩
  · unfold open_index
    rw [hrec]
  · unfold open_index recover
    rw [transaction_id_eq_zero_of_nocommit staged h]
    rfl

/-- Witness for C1 at a concrete committed log and concrete staged records. -/
theorem transaction_atomicity_witness :
    (∀ r ∈ [LogRecord.put 2 [8], LogRecord.delete 1], r.isCommit = false) ∧
    (transaction_id ([LogRecord.put 1 [7], LogRecord.commit] ++
        [LogRecord.put 2 [8], LogRecord.delete 1]) =
      transaction_id [LogRecord.put 1 [7], LogRecord.commit] ∧
     open_index ([LogRecord.put 1 [7], LogRecord.commit] ++
        [LogRecord.put 2 [8], LogRecord.delete 1]) =
      open_index [LogRecord.put 1 [7], LogRecord.commit] ∧
     (open_index [LogRecord.put 2 [8], LogRecord.delete 1] = fun _ => none) ∧
     recover (recover ([LogRecord.put 1 [7], LogRecord.commit] ++
        [LogRecord.put 2 [8], LogRecord.delete 1])) =
      recover ([LogRecord.put 1 [7], LogRecord.commit] ++
        [LogRecord.put 2 [8], LogRecord.delete 1])) :=
  ⟨by decide, transaction_atomicity _ _ (by decide)⟩

/-- Modelled from the spec: chunk identity is a deterministic, collision-free
keyed digest of the plaintext (I1: same plaintext + same key gives the same
chunk id); under one fixed key it is modelled as the plaintext itself. -/
abbrev Plaintext := List Nat

/-- Modelled from the spec: one row of the Chunks table: chunk id, reference
count, logical size, compressed size. -/
structure CacheEntry where
  id : Plaintext
  refcount : Nat
  size : Nat
  csize : Nat
deriving DecidableEq

/-- Modelled from the spec: the stored (compressed) size of a plaintext;
compression is modelled as the identity transform. -/
def stored_size (pt : Plaintext) : Nat := pt.length

/-- Modelled from the spec: storing a chunk: if its id is already present in
the Chunks table only the refcount is incremented (dedup decision), otherwise
the chunk is physically stored once with refcount 1. -/
def add_chunk (tbl : List CacheEntry) (pt : Plaintext) : List CacheEntry :=
  if tbl.any (fun e => e.id = pt) then
    tbl.map (fun e => if e.id = pt then { e with refcount := e.refcount + 1 } else e)
  else
    tbl ++ [⟨pt, 1, pt.length, stored_size pt⟩]

/-- Modelled from the spec: dereferencing a chunk decrements its refcount,
and a chunk whose refcount reaches zero is reclaimed (I2), i.e. removed from
the repository. -/
def decref_chunk (tbl : List CacheEntry) (pt : Plaintext) : List CacheEntry :=
  (tbl.map (fun e => if e.id = pt then { e with refcount := e.refcount - 1 } else e)).filter
    (fun e => e.refcount ≠ 0)

/-- Modelled from the spec: creating an archive stores each chunk of its
content in order. -/
def create_archive (tbl : List CacheEntry) (pts : List Plaintext) : List CacheEntry :=
  pts.foldl add_chunk tbl

/-- Modelled from the spec: deleting an archive decrements the refcount of
every chunk it referenced. -/
def delete_archive (tbl : List CacheEntry) (pts : List Plaintext) : List CacheEntry :=
  pts.foldl decref_chunk tbl

/-- Modelled from the spec: number of objects in the repository: the manifest
object plus one object per live chunk. -/
def repo_object_count (tbl : List CacheEntry) : Nat := 1 + tbl.length

theorem add_chunk_empty (pt : Plaintext) :
    add_chunk [] pt = [⟨pt, 1, pt.length, stored_size pt⟩] := by
  simp [add_chunk]

theorem add_chunk_hit (pt : Plaintext) (k s c : Nat) :
    add_chunk [⟨pt, k, s, c⟩] pt = [⟨pt, k + 1, s, c⟩] := by
  simp [add_chunk]

theorem decref_chunk_one (pt : Plaintext) (s c : Nat) :
    decref_chunk [⟨pt, 1, s, c⟩] pt = [] := by
  simp [decref_chunk]

theorem decref_chunk_succ (pt : Plaintext) (k s c : Nat) :
    decref_chunk [⟨pt, k + 2, s, c⟩] pt = [⟨pt, k + 1, s, c⟩] := by
  simp [decref_chunk]

theorem create_archive_replicate (pt : Plaintext) (n k s c : Nat) :
    (List.replicate n [pt]).foldl create_archive [⟨pt, k, s, c⟩] =
      [⟨pt, k + n, s, c⟩] := by
  induction n generalizing k with
  | zero => simp
  | succ n ih =>
      rw [List.replicate_succ, List.foldl_cons]
      have h1 : create_archive [⟨pt, k, s, c⟩] [pt] = [⟨pt, k + 1, s, c⟩] := by
        simp [create_archive, add_chunk_hit]
      rw [h1, ih]
      have hkn : k + 1 + n = k + (n + 1) := by omega
      rw [hkn]

theorem delete_archive_replicate (pt : Plaintext) (k s c : Nat) :
    (List.replicate (k + 1) [pt]).foldl delete_archive [⟨pt, k + 1, s, c⟩] = [] := by
  induction k with
  | zero =>
      rw [List.replicate_succ, List.foldl_cons]
      simp [delete_archive, decref_chunk_one]
  | succ k ih =>
      rw [List.replicate_succ, List.foldl_cons]
      have h1 : delete_archive [⟨pt, k + 2, s, c⟩] [pt] = [⟨pt, k + 1, s, c⟩] := by
        simp [delete_archive, decref_chunk_succ]
      rw [h1, ih]

/-- C2: Deduplication and reclamation.  Storing the same plaintext N times
via N different archives yields exactly one physical chunk with refcount N,
for every byte content including the empty blob; deleting every archive that
references it drops its refcount to zero so the chunk is reclaimed, leaving
only the manifest object (repository length 1).  Also the concrete scenario:
one archive with two identical files gives one chunk with refcount 2, and
deleting that archive empties the chunk store. -/
theorem dedup_refcount (pt : Plaintext) (N : Nat) (h : 0 < N) :
    (List.replicate N [pt]).foldl create_archive [] =
      [⟨pt, N, pt.length, stored_size pt⟩] ∧
    (List.replicate N [pt]).foldl delete_archive
        ((List.replicate N [pt]).foldl create_archive []) = [] ∧
    repo_object_count ((List.replicate N [pt]).foldl delete_archive
        ((List.replicate N [pt]).foldl create_archive [])) = 1 ∧
    create_archive [] [pt, pt] = [⟨pt, 2, pt.length, stored_size pt⟩] ∧
    delete_archive (create_archive [] [pt, pt]) [pt, pt] = [] := by
  obtain ⟨n, rfl⟩ : ∃ n, N = n + 1 := ⟨N - 1, by omega⟩
  have hcreate : (List.replicate (n + 1) [pt]).foldl create_archive [] =
      [⟨pt, n + 1, pt.length, stored_size pt⟩] := by
    rw [List.replicate_succ, List.foldl_cons]
    have h0 : create_archive [] [pt] = [⟨pt, 1, pt.length, stored_size pt⟩] := by
      simp [create_archive, add_chunk_empty]
    rw [h0, create_archive_replicate]
    have h1n : 1 + n = n + 1 := by omega
    rw [h1n]
  have hdelete : (List.replicate (n + 1) [pt]).foldl delete_archive
      ((List.replicate (n + 1) [pt]).foldl create_archive []) = [] := by
    rw [hcreate]
    exact delete_archive_replicate pt n pt.length (stored_size pt)
  have hsc : create_archive [] [pt, pt] = [⟨pt, 2, pt.length, stored_size pt⟩] := by
    show (add_chunk (add_chunk [] pt) pt) = _
    rw [add_chunk_empty, add_chunk_hit]
  refine ⟨hcreate, hdelete, ?_, hsc, ?_⟩
  · rw [hdelete]; rfl
  · rw [hsc]
    show decref_chunk (decref_chunk [⟨pt, 2, pt.length, stored_size pt⟩] pt) pt = []
    rw [show (2 : Nat) = 0 + 2 from rfl, decref_chunk_succ, decref_chunk_one]

/-- Witness for C2 at the empty blob stored three times. -/
theorem dedup_refcount_witness :
    0 < 3 ∧
    ((List.replicate 3 [([] : Plaintext)]).foldl create_archive [] =
      [⟨[], 3, 0, 0⟩] ∧
    (List.replicate 3 [([] : Plaintext)]).foldl delete_archive
        ((List.replicate 3 [([] : Plaintext)]).foldl create_archive []) = [] ∧
    repo_object_count ((List.replicate 3 [([] : Plaintext)]).foldl delete_archive
        ((List.replicate 3 [([] : Plaintext)]).foldl create_archive [])) = 1 ∧
    create_archive [] [([] : Plaintext), []] = [⟨[], 2, 0, 0⟩] ∧
    delete_archive (create_archive [] [([] : Plaintext), []]) [[], []] = []) :=
  ⟨by decide, dedup_refcount [] 3 (by decide)⟩

/-- Modelled from the spec: one entry of an item's chunk list: the chunk id
and its declared logical size. -/
structure FileChunk where
  id : Nat
  size : Nat
deriving DecidableEq

/-- Modelled from the spec: a filesystem item: its path, its ordered chunk
list, and, when repair has marked the item broken, the saved healthy chunk
list (the broken marker). -/
structure Item where
  path : Nat
  chunks : List FileChunk
  chunks_healthy : Option (List FileChunk)
deriving DecidableEq

/-- Modelled from the spec: the zero-filled placeholder chunk of a given
declared logical size that replaces a missing chunk; id 0 is the reserved
placeholder id. -/
def placeholder (size : Nat) : FileChunk := ⟨0, size⟩

/-- Modelled from the spec: whether an item carries the broken marker. -/
def Item.broken (it : Item) : Bool := it.chunks_healthy.isSome

/-- Modelled from the spec: the archive-consistency repair step on one item:
each entry of the item's healthy chunk list is looked up in the chunk index;
if every entry resolves, the chunk list is set to the healthy list and the
broken marker cleared (completely healed); otherwise missing entries are
replaced by same-size placeholders and the healthy list saved as the broken
marker. -/
def repair_item (index : List Nat) (it : Item) : Item :=
  let healthy := it.chunks_healthy.getD it.chunks
  if ∀ c ∈ healthy, c.id ∈ index then
    { it with chunks := healthy, chunks_healthy := none }
  else
    { it with chunks := healthy.map (fun c => if c.id ∈ index then c else placeholder c.size),
              chunks_healthy := some healthy }

theorem repair_item_all_present (idx : List Nat) (it : Item)
    (h : it.chunks_healthy = none) (hall : ∀ c ∈ it.chunks, c.id ∈ idx) :
    repair_item idx it = it := by
  cases it with
  | mk p ch hh =>
      simp only at h
      subst h
      simp only at hall
      simp [repair_item, hall]
      exact hall

theorem repair_item_damaged (idx : List Nat) (it : Item)
    (h : it.chunks_healthy = none) (hmiss : ¬ ∀ c ∈ it.chunks, c.id ∈ idx) :
    repair_item idx it =
      ⟨it.path, it.chunks.map (fun c => if c.id ∈ idx then c else placeholder c.size),
        some it.chunks⟩ := by
  cases it with
  | mk p ch hh =>
      simp only at h
      subst h
      simp only at hmiss
      simp [repair_item, hmiss]

theorem repair_item_sizes (idx : List Nat) (it : Item)
    (h : it.chunks_healthy = none) :
    (repair_item idx it).chunks.map (fun c => c.size) =
      it.chunks.map (fun c => c.size) := by
  by_cases hall : ∀ c ∈ it.chunks, c.id ∈ idx
  · rw [repair_item_all_present idx it h hall]
  · rw [repair_item_damaged idx it h hall]
    simp only [List.map_map]
    apply List.map_congr_left
    intro c _
    by_cases hc : c.id ∈ idx <;> simp [hc, placeholder]

theorem repair_item_round_trip (idx1 idx2 : List Nat) (it : Item)
    (h : it.chunks_healthy = none) (hback : ∀ c ∈ it.chunks, c.id ∈ idx2) :
    repair_item idx2 (repair_item idx1 it) = it := by
  by_cases hall : ∀ c ∈ it.chunks, c.id ∈ idx1
  · rw [repair_item_all_present idx1 it h hall,
        repair_item_all_present idx2 it h hback]
  · rw [repair_item_damaged idx1 it h hall]
    cases it with
    | mk p ch hh =>
        simp only at h
        subst h
        simp only at hback
        simp [repair_item, hback]
        exact hback

/-- C3: Healing round-trip.  For archives of items that are initially
healthy, repairing against an index missing some chunk marks every affected
item broken and replaces each missing chunk-list entry by a placeholder of
the same declared size (the size list of every item is preserved); after
identical content is reintroduced (content-addressing reproduces the same
chunk ids, so the new index resolves every original id), a second repair
clears the broken marker and restores the original chunk list exactly, in
every archive that referenced it. -/
theorem healing_round_trip (idx1 idx2 : List Nat) (archives : List (List Item))
    (hclean : ∀ arch ∈ archives, ∀ it ∈ arch, it.chunks_healthy = none)
    (hback : ∀ arch ∈ archives, ∀ it ∈ arch, ∀ c ∈ it.chunks, c.id ∈ idx2) :
    (∀ arch ∈ archives, ∀ it ∈ arch,
      (repair_item idx1 it).chunks.map (fun c => c.size) =
        it.chunks.map (fun c => c.size) ∧
      ((∃ c ∈ it.chunks, c.id ∉ idx1) →
        (repair_item idx1 it).broken = true ∧
        ∀ c ∈ it.chunks, c.id ∉ idx1 →
          placeholder c.size ∈ (repair_item idx1 it).chunks)) ∧
    archives.map (fun arch =>
        arch.map (fun it => repair_item idx2 (repair_item idx1 it))) = archives := by
  constructor
  · intro arch harch it hit
    have h := hclean arch harch it hit
    refine ⟨repair_item_sizes idx1 it h, ?_⟩
    rintro ⟨c, hc, hcm⟩
    have hmiss : ¬ ∀ c ∈ it.chunks, c.id ∈ idx1 := fun hall => hcm (hall c hc)
    rw [repair_item_damaged idx1 it h hmiss]
    refine ⟨rfl, ?_⟩
    intro d hd hdm
    have : (if d.id ∈ idx1 then d else placeholder d.size) = placeholder d.size := by
      simp [hdm]
    simpa [this] using List.mem_map_of_mem
      (fun c => if c.id ∈ idx1 then c else placeholder c.size) hd
  · have hmap : ∀ arch ∈ archives,
        arch.map (fun it => repair_item idx2 (repair_item idx1 it)) = id arch := by
      intro arch harch
      have hitem : ∀ it ∈ arch, repair_item idx2 (repair_item idx1 it) = id it :=
        fun it hit =>
          repair_item_round_trip idx1 idx2 it (hclean arch harch it hit)
            (hback arch harch it hit)
      calc arch.map (fun it => repair_item idx2 (repair_item idx1 it))
          = arch.map id := List.map_congr_left hitem
        _ = arch := List.map_id arch
    calc archives.map (fun arch =>
            arch.map (fun it => repair_item idx2 (repair_item idx1 it)))
        = archives.map id := List.map_congr_left hmap
      _ = archives := List.map_id archives

/-- Witness for C3: one archive, one item with chunks 1 and 2, chunk 2
deleted out-of-band (index [1]) and later reintroduced (index [1, 2]). -/
theorem healing_round_trip_witness :
    (∀ arch ∈ [[(⟨0, [⟨1, 4⟩, ⟨2, 5⟩], none⟩ : Item)]], ∀ it ∈ arch,
        it.chunks_healthy = none) ∧
    (∀ arch ∈ [[(⟨0, [⟨1, 4⟩, ⟨2, 5⟩], none⟩ : Item)]], ∀ it ∈ arch,
        ∀ c ∈ it.chunks, c.id ∈ [1, 2]) ∧
    ((∀ arch ∈ [[(⟨0, [⟨1, 4⟩, ⟨2, 5⟩], none⟩ : Item)]], ∀ it ∈ arch,
      (repair_item [1] it).chunks.map (fun c => c.size) =
        it.chunks.map (fun c => c.size) ∧
      ((∃ c ∈ it.chunks, c.id ∉ [1]) →
        (repair_item [1] it).broken = true ∧
        ∀ c ∈ it.chunks, c.id ∉ [1] →
          placeholder c.size ∈ (repair_item [1] it).chunks)) ∧
    List.map (fun arch =>
        arch.map (fun it => repair_item [1, 2] (repair_item [1] it)))
        [[(⟨0, [⟨1, 4⟩, ⟨2, 5⟩], none⟩ : Item)]] =
      [[(⟨0, [⟨1, 4⟩, ⟨2, 5⟩], none⟩ : Item)]]) :=
  ⟨by decide, by decide,
    healing_round_trip [1] [1, 2] [[⟨0, [⟨1, 4⟩, ⟨2, 5⟩], none⟩]]
      (by decide) (by decide)⟩

/-- Modelled from the spec: the repository key: the secret used for the
manifest authentication digest and the flag saying whether this key requires
an authenticated (TAM) manifest. -/
structure TamKey where
  secret : Nat
  tam_required : Bool
deriving DecidableEq

/-- Modelled from the spec: the manifest object: the archive list, the
timestamp, and the optional authentication tag (TAM). -/
structure ManifestObj where
  archives : List Nat
  timestamp : Nat
  tam : Option Nat
deriving DecidableEq

/-- Modelled from the spec: the keyed digest over the manifest's canonical
serialization, used as its authentication tag. -/
def tam_digest (secret : Nat) (archives : List Nat) (timestamp : Nat) : Nat :=
  secret + archives.foldl (fun a b => a + b + 1) 0 + timestamp

/-- Modelled from the spec: whether a manifest carries a valid matching tag
under the key's secret. -/
def tam_valid (secret : Nat) (m : ManifestObj) : Bool :=
  m.tam = some (tam_digest secret m.archives m.timestamp)

/-- Modelled from the spec: the failures of Manifest.load. -/
inductive ManifestErr where
  | tamRequiredError
  | notFound
deriving DecidableEq

/-- Modelled from the spec: Manifest.load fetches the manifest by its fixed
id, fails with ManifestNotFound when the object is missing, and, when the key
requires authentication, rejects outright any manifest whose tag is missing
or invalid (I5). -/
def manifest_load (key : TamKey) (stored : Option ManifestObj) :
    Except ManifestErr ManifestObj :=
  match stored with
  | none => .error .notFound
  | some m =>
      if key.tam_required && !(tam_valid key.secret m) then .error .tamRequiredError
      else .ok m

/-- Modelled from the spec: Manifest.save serializes the archive list and
timestamp and computes the authentication tag when the key has
authentication enabled. -/
def manifest_save (key : TamKey) (archives : List Nat) (timestamp : Nat) :
    ManifestObj :=
  ⟨archives, timestamp,
    if key.tam_required then some (tam_digest key.secret archives timestamp) else none⟩

/-- Modelled from the spec: every read operation starts by loading the
manifest; listing returns its archive list. -/
def list_archives (key : TamKey) (stored : Option ManifestObj) :
    Except ManifestErr (List Nat) :=
  (manifest_load key stored).map (fun m => m.archives)

/-- C4: Manifest authentication.  When the key requires authentication, a
stored manifest lacking a valid tag makes every read operation fail with the
manifest-authentication error; a manifest saved under this key (the restored
original, carrying a valid tag) loads fine; and after an explicit forced
disable of the requirement the same unauthenticated manifest is accepted
again. -/
theorem manifest_authentication (key : TamKey) (spoofed : ManifestObj)
    (archives : List Nat) (timestamp : Nat)
    (hreq : key.tam_required = true)
    (hbad : tam_valid key.secret spoofed = false) :
    list_archives key (some spoofed) = .error .tamRequiredError ∧
    list_archives key (some (manifest_save key archives timestamp)) = .ok archives ∧
    list_archives ⟨key.secret, false⟩ (some spoofed) = .ok spoofed.archives := by
  refine ⟨?_, ?_, ?_⟩
  · simp [list_archives, manifest_load, hreq, hbad]
    rfl
  · have hv : tam_valid key.secret (manifest_save key archives timestamp) = true := by
      simp [tam_valid, manifest_save, hreq]
    simp [list_archives, manifest_load, hv, Except.map]
    rfl
  · simp [list_archives, manifest_load, Except.map]

/-- Witness for C4 at a concrete key and a concrete tag-less manifest. -/
theorem manifest_authentication_witness :
    (⟨5, true⟩ : TamKey).tam_required = true ∧
    tam_valid 5 ⟨[9], 0, none⟩ = false ∧
    (list_archives ⟨5, true⟩ (some ⟨[9], 0, none⟩) =
        .error ManifestErr.tamRequiredError ∧
      list_archives ⟨5, true⟩ (some (manifest_save ⟨5, true⟩ [9] 0)) = .ok [9] ∧
      list_archives ⟨5, false⟩ (some ⟨[9], 0, none⟩) =
        .ok (ManifestObj.archives ⟨[9], 0, none⟩)) :=
  ⟨by decide, by decide,
    manifest_authentication ⟨5, true⟩ ⟨[9], 0, none⟩ [9] 0 (by decide) (by decide)⟩

/-- Modelled from the spec: the security state tracked across operations:
the persisted per-repository-id record saying whether this key requires
manifest authentication, and whether the currently stored manifest carries a
valid tag. -/
structure TamState where
  tam_required : Bool
  manifest_tam_ok : Bool
deriving DecidableEq

/-- Modelled from the spec: the operations touching this state: ordinary
read operations, the explicit administrative enable of authentication, and
the explicit administrative disable carrying a force flag. -/
inductive TamOp where
  | read
  | enableTam
  | disableTam (force : Bool)
deriving DecidableEq

/-- Modelled from the spec: the errors of these operations. -/
inductive TamStepErr where
  | tamRequiredError
  | forceRequired
deriving DecidableEq

/-- Modelled from the spec: one operation against the security state: an
ordinary read rejects an unauthenticated manifest when authentication is
required, and never changes the persisted record; enabling authentication
re-signs the manifest; disabling requires the explicit force flag. -/
def tam_step (s : TamState) : TamOp → Except TamStepErr TamState
  | .read =>
      if s.tam_required && !s.manifest_tam_ok then .error .tamRequiredError
      else .ok s
  | .enableTam => .ok ⟨true, true⟩
  | .disableTam force =>
      if force then .ok ⟨false, s.manifest_tam_ok⟩ else .error .forceRequired

/-- Modelled from the spec: running a sequence of operations; an operation
that fails aborts without changing the state, and later operations continue
from the unchanged state. -/
def tam_run (s : TamState) : List TamOp → TamState
  | [] => s
  | op :: ops =>
      tam_run (match tam_step s op with | .ok t => t | .error _ => s) ops

theorem tam_step_read_self (s : TamState) :
    (match tam_step s .read with | .ok t => t | .error _ => s) = s := by
  by_cases h : (s.tam_required && !s.manifest_tam_ok) = true
  · simp [tam_step, h]
  · simp [tam_step, h]

theorem tam_required_preserved (s : TamState) (ops : List TamOp)
    (hreq : s.tam_required = true)
    (hfin : (tam_run s ops).tam_required = false) :
    TamOp.disableTam true ∈ ops := by
  induction ops generalizing s with
  | nil => rw [tam_run] at hfin; rw [hreq] at hfin; exact absurd hfin (by simp)
  | cons op ops ih =>
      cases op with
      | read =>
          rw [tam_run, tam_step_read_self] at hfin
          exact List.mem_cons_of_mem _ (ih s hreq hfin)
      | enableTam =>
          rw [tam_run] at hfin
          exact List.mem_cons_of_mem _ (ih ⟨true, true⟩ rfl hfin)
      | disableTam force =>
          cases force with
          | true => exact List.mem_cons_self _ _
          | false =>
              rw [tam_run] at hfin
              exact List.mem_cons_of_mem _ (ih s hreq hfin)

/-- C5: Anti-downgrade.  Starting from a state whose key has manifest
authentication enabled, the requirement can only have been turned off by an
explicit force-flagged disable among the executed operations; moreover an
ordinary read on any state requiring authentication whose manifest is
unauthenticated fails rather than silently accepting it, and an ordinary
read never changes the persisted security record. -/
theorem tam_anti_downgrade (s : TamState) (ops : List TamOp)
    (hreq : s.tam_required = true)
    (hfin : (tam_run s ops).tam_required = false) :
    TamOp.disableTam true ∈ ops ∧
    (∀ t : TamState, t.tam_required = true → t.manifest_tam_ok = false →
      tam_step t .read = .error .tamRequiredError) ∧
    (∀ t u : TamState, tam_step t .read = .ok u → u = t) := by
  refine ⟨tam_required_preserved s ops hreq hfin, ?_, ?_⟩
  · intro t h1 h2
    simp [tam_step, h1, h2]
  · intro t u h
    by_cases hb : (t.tam_required && !t.manifest_tam_ok) = true
    · simp [tam_step, hb] at h
    · simp [tam_step, hb] at h
      exact h.symm

/-- Witness for C5 at a concrete operation sequence that reads, disables
with force, then reads again. -/
theorem tam_anti_downgrade_witness :
    (⟨true, true⟩ : TamState).tam_required = true ∧
    (tam_run ⟨true, true⟩
        [TamOp.read, TamOp.disableTam true, TamOp.read]).tam_required = false ∧
    (TamOp.disableTam true ∈ [TamOp.read, TamOp.disableTam true, TamOp.read] ∧
      (∀ t : TamState, t.tam_required = true → t.manifest_tam_ok = false →
        tam_step t .read = .error .tamRequiredError) ∧
      (∀ t u : TamState, tam_step t .read = .ok u → u = t)) :=
  ⟨by decide, by decide,
    tam_anti_downgrade ⟨true, true⟩ [TamOp.read, TamOp.disableTam true, TamOp.read]
      (by decide) (by decide)⟩

/-- Modelled from the spec: one chunk reference made by an archive: the
chunk id with the logical and compressed sizes it reports. -/
structure ChunkRef where
  id : Nat
  size : Nat
  csize : Nat
deriving DecidableEq

/-- Modelled from the spec: the number of references a list of chunk
references makes to one id. -/
def ref_count (refs : List ChunkRef) (i : Nat) : Nat :=
  (refs.filter (fun r => r.id = i)).length

/-- Modelled from the spec: the incremental Chunks-table update: a chunk
referenced again gets its refcount incremented; a chunk seen for the first
time gets a fresh row with refcount 1 and the reference's sizes. -/
def chunk_incref (tbl : Nat → Option (Nat × Nat × Nat)) (r : ChunkRef) :
    Nat → Option (Nat × Nat × Nat) :=
  fun i =>
    if i = r.id then
      match tbl r.id with
      | some (n, s, c) => some (n + 1, s, c)
      | none => some (1, r.size, r.csize)
    else tbl i

/-- Modelled from the spec: the fast incremental path: each committed
archive is applied in turn to the running Chunks table, starting from the
empty table. -/
def incremental_chunks (archives : List (List ChunkRef)) :
    Nat → Option (Nat × Nat × Nat) :=
  archives.foldl (fun tbl a => a.foldl chunk_incref tbl) (fun _ => none)

/-- Modelled from the spec: all chunk references of all archives reachable
from the manifest, in archive order. -/
def repo_refs (archives : List (List ChunkRef)) : List ChunkRef :=
  archives.foldr (· ++ ·) []

/-- Modelled from the spec (specification side of the refinement): the full
resync discards the cached table and recomputes refcounts from nothing by
walking every archive reachable from the manifest: an id's refcount is the
total number of references to it, its sizes those reported where it is
stored (its first reference). -/
def full_resync (archives : List (List ChunkRef)) :
    Nat → Option (Nat × Nat × Nat) :=
  fun i =>
    match (repo_refs archives).find? (fun r => r.id = i) with
    | some r => some (ref_count (repo_refs archives) i, r.size, r.csize)
    | none => none

theorem foldl_chunk_incref (refs : List ChunkRef)
    (tbl : Nat → Option (Nat × Nat × Nat)) (i : Nat) :
    (refs.foldl chunk_incref tbl) i =
      match tbl i with
      | some (n, s, c) => some (n + ref_count refs i, s, c)
      | none =>
          match refs.find? (fun r => r.id = i) with
          | some r => some (ref_count refs i, r.size, r.csize)
          | none => none := by
  induction refs generalizing tbl with
  | nil =>
      simp only [List.foldl_nil, ref_count, List.filter_nil, List.length_nil,
        List.find?_nil]
      cases htbl : tbl i with
      | none => rfl
      | some v => obtain ⟨n, s, c⟩ := v; simp
  | cons r refs ih =>
      rw [List.foldl_cons, ih]
      by_cases hi : i = r.id
      · subst hi
        have hcount : ref_count (r :: refs) r.id = ref_count refs r.id + 1 := by
          simp [ref_count]
        have hfind : (r :: refs).find? (fun q => q.id = r.id) = some r := by
          simp [List.find?_cons]
        cases htbl : tbl r.id with
        | some v =>
            obtain ⟨n, s, c⟩ := v
            have harith : n + 1 + ref_count refs r.id =
                n + (ref_count refs r.id + 1) := by omega
            simp [chunk_incref, htbl, hcount, harith]
        | none =>
            have harith : 1 + ref_count refs r.id = ref_count refs r.id + 1 := by
              omega
            simp [chunk_incref, htbl, hcount, hfind, harith]
      · have hinc : (chunk_incref tbl r) i = tbl i := by
          simp [chunk_incref, hi]
        have hcount : ref_count (r :: refs) i = ref_count refs i := by
          have : ¬ r.id = i := fun hh => hi hh.symm
          simp [ref_count, this]
        have hfind : (r :: refs).find? (fun q => q.id = i) =
            refs.find? (fun q => q.id = i) := by
          have : ¬ r.id = i := fun hh => hi hh.symm
          simp [List.find?_cons, this]
        rw [hinc, hcount, hfind]

theorem repo_refs_foldl (archives : List (List ChunkRef))
    (tbl : Nat → Option (Nat × Nat × Nat)) :
    (repo_refs archives).foldl chunk_incref tbl =
      archives.foldl (fun t a => a.foldl chunk_incref t) tbl := by
  induction archives generalizing tbl with
  | nil => rfl
  | cons a archives ih =>
      show ((a ++ repo_refs archives).foldl chunk_incref tbl) = _
      rw [List.foldl_append, List.foldl_cons, ih]

/-- C6: Cache equivalence.  For every repository with any number of archives
(K at least 0), the Chunks table maintained by the fast incremental path
agrees at every chunk id with the table rebuilt by a full resync walking
every archive reachable from the manifest: same ids present, and for each id
the same refcount, logical size and compressed size. -/
theorem cache_equivalence (archives : List (List ChunkRef)) (i : Nat) :
    incremental_chunks archives i = full_resync archives i := by
  unfold incremental_chunks full_resync
  rw [← repo_refs_foldl, foldl_chunk_incref]

/-- Modelled from the spec: the persisted security record of a repository
location: which repository id this location should contain and which
encryption method its key uses. -/
structure SecurityRecord where
  repository_id : Nat
  encryption : Nat
deriving DecidableEq

/-- Modelled from the spec: the identity the live repository presents on
open. -/
structure LiveRepo where
  repository_id : Nat
  encryption : Nat
deriving DecidableEq

/-- Modelled from the spec: the outcome of the cache-open security check. -/
inductive CacheOpenResult where
  | ok
  | repositoryAccessAborted
  | encryptionMethodMismatch
  | cacheInitAborted
deriving DecidableEq

/-- Modelled from the spec: on every cache open the persisted record is
compared against the live repository: a repository-id mismatch aborts with
RepositoryAccessAborted, an encryption-method mismatch aborts with
EncryptionMethodMismatch, and an unknown repository (no record) aborts with
CacheInitAborted unless the explicit override confirms it; only a full match
proceeds. -/
def assert_secure (known : Option SecurityRecord) (live : LiveRepo)
    (override : Bool) : CacheOpenResult :=
  match known with
  | none => if override then .ok else .cacheInitAborted
  | some sr =>
      if sr.repository_id ≠ live.repository_id then .repositoryAccessAborted
      else if sr.encryption ≠ live.encryption then .encryptionMethodMismatch
      else .ok

/-- C7: Repository-swap detection.  If the persisted record disagrees with
the live repository in id or encryption method, the cache open never
proceeds (for any override), and the error names the mismatch:
RepositoryAccessAborted for a swapped repository id, EncryptionMethodMismatch
for a changed encryption method; an unknown repository without the explicit
override aborts with CacheInitAborted instead of silently rebuilding. -/
theorem repository_swap_detection (sr : SecurityRecord) (live : LiveRepo)
    (override : Bool)
    (hmis : sr.repository_id ≠ live.repository_id ∨ sr.encryption ≠ live.encryption) :
    assert_secure (some sr) live override ≠ .ok ∧
    assert_secure (some sr) live override =
      (if sr.repository_id ≠ live.repository_id then
        CacheOpenResult.repositoryAccessAborted
      else CacheOpenResult.encryptionMethodMismatch) ∧
    assert_secure none live false = .cacheInitAborted := by
  refine ⟨?_, ?_, rfl⟩
  · by_cases hid : sr.repository_id = live.repository_id
    · have henc : sr.encryption ≠ live.encryption := by
        rcases hmis with h | h
        · exact absurd hid h
        · exact h
      simp [assert_secure, hid, henc]
    · simp [assert_secure, hid]
  · by_cases hid : sr.repository_id = live.repository_id
    · have henc : sr.encryption ≠ live.encryption := by
        rcases hmis with h | h
        · exact absurd hid h
        · exact h
      simp [assert_secure, hid, henc]
    · simp [assert_secure, hid]

/-- Witness for C7: a repository whose encryption method changed under an
unchanged repository id. -/
theorem repository_swap_detection_witness :
    ((⟨1, 0⟩ : SecurityRecord).repository_id ≠ (⟨1, 1⟩ : LiveRepo).repository_id ∨
      (⟨1, 0⟩ : SecurityRecord).encryption ≠ (⟨1, 1⟩ : LiveRepo).encryption) ∧
    (assert_secure (some ⟨1, 0⟩) ⟨1, 1⟩ false ≠ .ok ∧
      assert_secure (some ⟨1, 0⟩) ⟨1, 1⟩ false =
        (if (⟨1, 0⟩ : SecurityRecord).repository_id ≠ (⟨1, 1⟩ : LiveRepo).repository_id
         then CacheOpenResult.repositoryAccessAborted
         else CacheOpenResult.encryptionMethodMismatch) ∧
      assert_secure none ⟨1, 1⟩ false = .cacheInitAborted) :=
  ⟨by decide, repository_swap_detection ⟨1, 0⟩ ⟨1, 1⟩ false (by decide)⟩

/-- Modelled from the spec: the checker's view of a repository: the manifest
(none when missing, corrupted or unauthenticated), the stored
archive-metadata objects (archive id with the items of its items-stream),
and the ids of the stored file-content chunks. -/
structure CheckRepo where
  manifest : Option (List Nat)
  metas : List (Nat × List Item)
  chunks : List Nat
deriving DecidableEq

/-- Modelled from the spec: the archive ids the manifest lists (empty when
the manifest is unreadable). -/
def manifest_ids (r : CheckRepo) : List Nat := r.manifest.getD []

/-- Modelled from the spec: the items of the archives reachable from a list
of archive ids through the stored archive metadata (walking Manifest to
archives to items). -/
def reachable_items (mids : List Nat) (metas : List (Nat × List Item)) :
    List Item :=
  match mids with
  | [] => []
  | i :: rest =>
      (match metas.find? (fun e => e.1 = i) with
       | some e => e.2
       | none => []) ++ reachable_items rest metas

/-- Modelled from the spec: the non-placeholder chunk ids referenced by a
list of items. -/
def referenced_ids (items : List Item) : List Nat :=
  match items with
  | [] => []
  | it :: rest =>
      (it.chunks.map (fun c => c.id)).filter (fun i => i ≠ 0) ++
        referenced_ids rest

/-- Modelled from the spec: what a plain check can report: a damaged or
missing manifest, an archive listed in the manifest whose metadata object is
missing, a referenced file chunk absent from the store, and an orphaned
chunk unreachable from the manifest. -/
inductive Issue where
  | manifestDamaged
  | missingArchiveMetadata (archive_id : Nat)
  | missingFileChunk (chunk_id : Nat)
  | orphanChunk (chunk_id : Nat)
deriving DecidableEq

/-- Modelled from the spec: the full issue report of a plain (diagnostic)
check run. -/
def issues (r : CheckRepo) : List Issue :=
  (match r.manifest with
   | none => [Issue.manifestDamaged]
   | some _ => []) ++
  ((manifest_ids r).filter
      (fun i => !(r.metas.any (fun e => e.1 = i)))).map
    Issue.missingArchiveMetadata ++
  ((referenced_ids (reachable_items (manifest_ids r) r.metas)).filter
      (fun i => i ∉ r.chunks)).map Issue.missingFileChunk ++
  (r.chunks.filter
      (fun i => i ∉ referenced_ids (reachable_items (manifest_ids r) r.metas))).map
    Issue.orphanChunk

/-- Modelled from the spec: the manifest rebuilt or pruned by repair: when
the manifest is damaged it is rebuilt from the stored archive-metadata
objects; otherwise entries whose metadata object is missing are dropped. -/
def repaired_mids (r : CheckRepo) : List Nat :=
  match r.manifest with
  | some ids => ids.filter (fun i => r.metas.any (fun e => e.1 = i))
  | none => r.metas.map (fun e => e.1)

/-- Modelled from the spec: the archive-metadata objects after repair: only
archives in the repaired manifest survive and every item of every surviving
archive goes through the per-item missing-chunk repair/heal step. -/
def repaired_metas (r : CheckRepo) : List (Nat × List Item) :=
  (r.metas.filter (fun e => e.1 ∈ repaired_mids r)).map
    (fun e => (e.1, e.2.map (repair_item r.chunks)))

/-- Modelled from the spec: the chunk ids reachable from the repaired
manifest. -/
def repaired_live (r : CheckRepo) : List Nat :=
  referenced_ids (reachable_items (repaired_mids r) (repaired_metas r))

/-- Modelled from the spec: check --repair: rebuild the manifest from the
stored archive metadata when it is damaged, drop manifest entries whose
metadata object is missing, run the per-item missing-chunk repair/heal step
on every remaining archive, and delete orphaned chunks. -/
def check_repair (r : CheckRepo) : CheckRepo :=
  ⟨some (repaired_mids r), repaired_metas r,
    r.chunks.filter (fun i => i ∈ repaired_live r)⟩

/-- Modelled from the spec: exit status of a plain check: 0 when clean, 1
when issues were found. -/
def check_status (r : CheckRepo) : Nat := if issues r = [] then 0 else 1

/-- Modelled from the spec: running check: without repair the repository is
only read and the diagnosis reported; with repair the repairs are performed
and the run reports success. -/
def run_check (repairFlag : Bool) (r : CheckRepo) : CheckRepo × Nat :=
  if repairFlag then (check_repair r, 0) else (r, check_status r)

theorem repair_item_ids (idx : List Nat) (it : Item) :
    ∀ c ∈ (repair_item idx it).chunks, c.id ≠ 0 → c.id ∈ idx := by
  intro c hc hne
  unfold repair_item at hc
  by_cases hall : ∀ d ∈ it.chunks_healthy.getD it.chunks, d.id ∈ idx
  · rw [if_pos hall] at hc
    exact hall c hc
  · rw [if_neg hall] at hc
    simp only [List.mem_map] at hc
    obtain ⟨d, hd, hdc⟩ := hc
    by_cases hdm : d.id ∈ idx
    · rw [if_pos hdm] at hdc
      rw [← hdc]
      exact hdm
    · rw [if_neg hdm] at hdc
      rw [← hdc] at hne
      exact absurd rfl hne

theorem mem_reachable_items (mids : List Nat) (metas : List (Nat × List Item))
    (it : Item) (h : it ∈ reachable_items mids metas) :
    ∃ e ∈ metas, it ∈ e.2 := by
  induction mids with
  | nil => exact absurd h (by simp [reachable_items])
  | cons i rest ih =>
      rw [reachable_items] at h
      rcases List.mem_append.mp h with h1 | h2
      · cases hfind : metas.find? (fun e => e.1 = i) with
        | none => rw [hfind] at h1; exact absurd h1 (by simp)
        | some e =>
            rw [hfind] at h1
            exact ⟨e, List.mem_of_find?_eq_some hfind, h1⟩
      · exact ih h2

theorem referenced_ids_subset (items : List Item) (idx : List Nat)
    (h : ∀ it ∈ items, ∀ c ∈ it.chunks, c.id ≠ 0 → c.id ∈ idx) :
    ∀ i ∈ referenced_ids items, i ∈ idx := by
  induction items with
  | nil => intro i hi; exact absurd hi (by simp [referenced_ids])
  | cons it rest ih =>
      intro i hi
      rw [referenced_ids] at hi
      rcases List.mem_append.mp hi with h1 | h2
      · rw [List.mem_filter] at h1
        obtain ⟨hmem, hne⟩ := h1
        rw [List.mem_map] at hmem
        obtain ⟨c, hc, hci⟩ := hmem
        have hne0 : c.id ≠ 0 := by
          rw [hci]
          simpa using hne
        rw [← hci]
        exact h it (List.mem_cons_self it rest) c hc hne0
      · exact ih (fun x hx => h x (List.mem_cons_of_mem it hx)) i h2

theorem mids_covered (r : CheckRepo) :
    ∀ i ∈ repaired_mids r, ∃ e ∈ r.metas, e.1 = i := by
  intro i hi
  unfold repaired_mids at hi
  cases hm : r.manifest with
  | some ids =>
      rw [hm] at hi
      rw [List.mem_filter] at hi
      obtain ⟨_, hany⟩ := hi
      simp only [List.any_eq_true, decide_eq_true_eq] at hany
      exact hany
  | none =>
      rw [hm] at hi
      rw [List.mem_map] at hi
      obtain ⟨e, he, hei⟩ := hi
      exact ⟨e, he, hei⟩

theorem mids_have_metas (r : CheckRepo) :
    ∀ i ∈ repaired_mids r, ∃ l, (i, l) ∈ repaired_metas r := by
  intro i hi
  obtain ⟨e, he, hei⟩ := mids_covered r i hi
  have he2 : e ∈ r.metas.filter (fun e => e.1 ∈ repaired_mids r) := by
    rw [List.mem_filter]
    refine ⟨he, ?_⟩
    simp only [decide_eq_true_eq]
    rw [hei]
    exact hi
  refine ⟨e.2.map (repair_item r.chunks), ?_⟩
  have hmem : (e.1, e.2.map (repair_item r.chunks)) ∈ repaired_metas r := by
    unfold repaired_metas
    exact List.mem_map_of_mem _ he2
  rw [hei] at hmem
  exact hmem

theorem repaired_metas_items (r : CheckRepo) :
    ∀ e ∈ repaired_metas r, ∀ it ∈ e.2, ∀ c ∈ it.chunks,
      c.id ≠ 0 → c.id ∈ r.chunks := by
  intro e he it hit c hc hne
  unfold repaired_metas at he
  rw [List.mem_map] at he
  obtain ⟨a, _, hae⟩ := he
  rw [← hae] at hit
  simp only [List.mem_map] at hit
  obtain ⟨it0, _, hit0⟩ := hit
  rw [← hit0] at hc
  exact repair_item_ids r.chunks it0 c hc hne

theorem repaired_live_stored (r : CheckRepo) :
    ∀ i ∈ repaired_live r, i ∈ r.chunks := by
  unfold repaired_live
  apply referenced_ids_subset
  intro it hit c hc hne
  obtain ⟨e, he, hite⟩ := mem_reachable_items _ _ it hit
  exact repaired_metas_items r e he it hite c hc hne

theorem repaired_live_kept (r : CheckRepo) :
    ∀ i ∈ repaired_live r, i ∈ (check_repair r).chunks := by
  intro i hi
  show i ∈ r.chunks.filter (fun i => i ∈ repaired_live r)
  rw [List.mem_filter]
  exact ⟨repaired_live_stored r i hi, by simpa using hi⟩

/-- A repaired repository reports no issues: the rebuilt manifest exists,
every listed archive has its metadata, every referenced chunk is stored, and
no stored chunk is orphaned. -/
theorem issues_check_repair (r : CheckRepo) : issues (check_repair r) = [] := by
  unfold issues
  have hmani : (check_repair r).manifest = some (repaired_mids r) := rfl
  have hmids : manifest_ids (check_repair r) = repaired_mids r := rfl
  have hmetas : (check_repair r).metas = repaired_metas r := rfl
  rw [hmani, hmids, hmetas]
  have hreach : reachable_items (repaired_mids r) (repaired_metas r) =
      reachable_items (repaired_mids r) (repaired_metas r) := rfl
  refine List.append_eq_nil.mpr ⟨List.append_eq_nil.mpr
    ⟨List.append_eq_nil.mpr ⟨rfl, ?_⟩, ?_⟩, ?_⟩
  · rw [List.map_eq_nil_iff, List.filter_eq_nil_iff]
    intro i hi
    obtain ⟨l, hl⟩ := mids_have_metas r i hi
    simp only [Bool.not_eq_true', Bool.not_eq_false]
    rw [List.any_eq_true]
    exact ⟨(i, l), hl, by simp⟩
  · rw [List.map_eq_nil_iff, List.filter_eq_nil_iff]
    intro i hi
    have hlive : i ∈ repaired_live r := hi
    have := repaired_live_kept r i hlive
    simp only [decide_eq_true_eq, Decidable.not_not]
    exact this
  · rw [List.map_eq_nil_iff, List.filter_eq_nil_iff]
    intro i hi
    have hch : i ∈ r.chunks.filter (fun i => i ∈ repaired_live r) := hi
    rw [List.mem_filter] at hch
    simp only [decide_eq_true_eq, Decidable.not_not]
    simpa using hch.2

/-- C8: Non-destructive diagnosis.  A check run without repair returns the
repository unchanged and only reports; running it again on the same damaged
repository reports the same status; the exit status is 0 exactly when the
repository is clean and 1 exactly when issues were found; and after a
check with repair a plain check reports clean. -/
theorem check_nondestructive (r : CheckRepo) :
    run_check false r = (r, check_status r) ∧
    (run_check false r).1 = r ∧
    (run_check false ((run_check false r).1)).2 = (run_check false r).2 ∧
    (check_status r = 0 ↔ issues r = []) ∧
    (check_status r = 1 ↔ issues r ≠ []) ∧
    check_status ((run_check true r).1) = 0 := by
  refine ⟨rfl, rfl, rfl, ?_, ?_, ?_⟩
  · unfold check_status
    by_cases h : issues r = [] <;> simp [h]
  · unfold check_status
    by_cases h : issues r = [] <;> simp [h]
  · show check_status (check_repair r) = 0
    unfold check_status
    rw [issues_check_repair]
    rfl

/-- C9: Repair idempotence.  After one check with repair — whatever the
damage: missing file chunks, missing items-stream chunks, missing archive
metadata, or a missing or corrupted manifest, all expressible as a CheckRepo
state — a plain check with no intervening writes reports clean (status 0),
and so does a second check with repair. -/
theorem repair_idempotence (r : CheckRepo) :
    issues (check_repair r) = [] ∧
    check_status (check_repair r) = 0 ∧
    run_check false (check_repair r) = (check_repair r, 0) ∧
    check_status ((run_check true (check_repair r)).1) = 0 := by
  have hclean := issues_check_repair r
  have hstatus : check_status (check_repair r) = 0 := by
    unfold check_status
    rw [hclean]
    rfl
  refine ⟨hclean, hstatus, ?_, ?_⟩
  · show (check_repair r, check_status (check_repair r)) = (check_repair r, 0)
    rw [hstatus]
  · show check_status (check_repair (check_repair r)) = 0
    unfold check_status
    rw [issues_check_repair]
    rfl

/-- Modelled from the spec: the key's global nonce state: one counter space
for the whole life of the repository key; deletion of chunks never returns
counter values. -/
structure NonceState where
  counter : Nat
deriving DecidableEq

/-- Modelled from the spec: encrypting a chunk that needs a number of AES
blocks reserves the counter interval starting at the current counter and
advances the counter past it. -/
def encrypt_alloc (s : NonceState) (nblocks : Nat) : (Nat × Nat) × NonceState :=
  ((s.counter, nblocks), ⟨s.counter + nblocks⟩)

/-- Modelled from the spec: the (nonce, block count) intervals consumed by a
sequence of encryptions over the repository's lifetime — archive creations,
deletions and re-insertions all draw from the same single counter space. -/
def nonce_intervals (s : NonceState) : List Nat → List (Nat × Nat)
  | [] => []
  | n :: reqs =>
      let r := encrypt_alloc s n
      r.1 :: nonce_intervals r.2 reqs

/-- Modelled from the spec: whether an encryption interval uses a given AES
counter value. -/
def uses (iv : Nat × Nat) (v : Nat) : Bool :=
  decide (iv.1 ≤ v) && decide (v < iv.1 + iv.2)

theorem nonce_count_zero (s : NonceState) (reqs : List Nat) (v : Nat)
    (hv : v < s.counter) :
    (nonce_intervals s reqs).countP (fun iv => uses iv v) = 0 := by
  induction reqs generalizing s with
  | nil => rfl
  | cons n reqs ih =>
      have hhead : uses (s.counter, n) v = false := by
        simp only [uses, Bool.and_eq_false_iff, decide_eq_false_iff_not]
        left
        omega
      have hrest := ih ⟨s.counter + n⟩ (show v < s.counter + n by omega)
      simp [nonce_intervals, encrypt_alloc, List.countP_cons, hhead, hrest]

/-- C10: Nonce/counter uniqueness.  Across any sequence of encryptions drawn
from the key's single global counter space — the whole lifetime of the
repository, with deletions and re-insertions never returning counter values
— every AES counter value is used by at most one stored ciphertext: it lies
in at most one reserved interval. -/
theorem nonce_uniqueness (s : NonceState) (reqs : List Nat) (v : Nat) :
    (nonce_intervals s reqs).countP (fun iv => uses iv v) ≤ 1 := by
  induction reqs generalizing s with
  | nil => simp [nonce_intervals]
  | cons n reqs ih =>
      by_cases hh : uses (s.counter, n) v = true
      · have hv : v < s.counter + n := by
          have h2 := hh
          simp only [uses, Bool.and_eq_true, decide_eq_true_eq] at h2
          omega
        have hrest := nonce_count_zero ⟨s.counter + n⟩ reqs v
          (show v < s.counter + n from hv)
        simp [nonce_intervals, encrypt_alloc, List.countP_cons, hh, hrest]
      · have hh2 : uses (s.counter, n) v = false := by
          simpa using hh
        have hrest := ih ⟨s.counter + n⟩
        simp [nonce_intervals, encrypt_alloc, List.countP_cons, hh2]
        omega
